import Mathlib

/-!
Shallow embedding of the citation-aware chunking and citation-aggregation
subsystem of the repository (files `ingestion.py` and `citation_handler.py`),
together with proofs of the specification claims about it.

Strings are modelled as Lean `String`s (lists of Unicode code points), which
matches Python `str` (sequences of code points).  Python's Unicode-aware
case folding, `\w`, `\s` and `str.isdigit` classes are embedded restricted to
the ASCII and Cyrillic ranges actually used by the program's patterns,
denylist phrases and inputs.
-/

/-- Lowercasing of a single code point, as Python `str.lower` acts on the
ASCII and Cyrillic letters used by the program (`re.IGNORECASE` and
`text.lower()` in the source). -/
def charLower (c : Char) : Char :=
  if 'A' ≤ c ∧ c ≤ 'Z' then Char.ofNat (c.toNat + 32)
  else if 0x410 ≤ c.toNat ∧ c.toNat ≤ 0x42F then Char.ofNat (c.toNat + 0x20)
  else if 0x400 ≤ c.toNat ∧ c.toNat ≤ 0x40F then Char.ofNat (c.toNat + 0x50)
  else if c.toNat = 0x490 then Char.ofNat 0x491
  else c

/-- Python's `\s` class and `str.strip` whitespace (ASCII whitespace plus the
no-break space U+00A0). -/
def isPySpace (c : Char) : Bool :=
  c = ' ' ∨ c = '\t' ∨ c = '\n' ∨ c = '\r' ∨ c = '\x0b' ∨ c = '\x0c' ∨ c = '\xa0'

/-- ASCII decimal digit, the digits occurring in the program's data
(Python `str.isdigit` restricted to ASCII). -/
def isAsciiDigit (c : Char) : Bool :=
  '0' ≤ c ∧ c ≤ '9'

/-- Python's `\w` class (word character) restricted to ASCII and Cyrillic:
letters, digits and underscore. -/
def isWordChar (c : Char) : Bool :=
  ('a' ≤ c ∧ c ≤ 'z') ∨ ('A' ≤ c ∧ c ≤ 'Z') ∨ isAsciiDigit c ∨ c = '_' ∨
    (0x400 ≤ c.toNat ∧ c.toNat ≤ 0x4FF)

/-- Python `str.strip()` on a list of code points: drop leading and trailing
whitespace. -/
def stripChars (l : List Char) : List Char :=
  ((l.dropWhile isPySpace).reverse.dropWhile isPySpace).reverse

/-- Python `str.strip()`. -/
def pyStrip (s : String) : String :=
  String.mk (stripChars s.data)

/-- Strict lexicographic order on code-point sequences: Python's `<` on
`str`. -/
def charListLt : List Char → List Char → Bool
  | [], [] => false
  | [], _ :: _ => true
  | _ :: _, [] => false
  | a :: as, b :: bs =>
    if a.toNat < b.toNat then true
    else if b.toNat < a.toNat then false
    else charListLt as bs

/-- Python's `<` on strings. -/
def strLt (a b : String) : Bool :=
  charListLt a.data b.data

/-- Splits the maximal `\w+` prefix off a list of code points:
returns the word run and the remainder. -/
def takeWord : List Char → List Char × List Char
  | [] => ([], [])
  | c :: rest =>
    if isWordChar c then
      let p := takeWord rest
      (c :: p.1, p.2)
    else ([], c :: rest)

theorem dropWhile_length_le (p : Char → Bool) :
    ∀ l : List Char, (l.dropWhile p).length ≤ l.length
  | [] => Nat.le_refl _
  | c :: rest => by
    rw [List.dropWhile]
    split
    · exact Nat.le_succ_of_le (dropWhile_length_le p rest)
    · exact Nat.le_refl _

theorem takeWord_snd_length : ∀ l : List Char, (takeWord l).2.length ≤ l.length
  | [] => Nat.le_refl _
  | c :: rest => by
    rw [takeWord]
    split
    · exact Nat.le_succ_of_le (takeWord_snd_length rest)
    · exact Nat.le_refl _

/-- One `re.sub(r'(\w+)-\n\s*(\w+)', r'\1\2', text)` pass: scanning left to
right, a maximal word run followed by a hyphen, a line break, optional
whitespace and another word run is replaced by the two runs joined; scanning
resumes after the second run (leftmost non-overlapping matches, greedy
`\w+`). -/
def deHyphenF : Nat → List Char → List Char
  | 0, l => l
  | _ + 1, [] => []
  | fuel + 1, c :: rest =>
    if isWordChar c then
      match (takeWord rest).2 with
      | '-' :: '\n' :: t2 =>
        match t2.dropWhile isPySpace with
        | d :: _ =>
          if isWordChar d then
            c :: (takeWord rest).1 ++ (takeWord (t2.dropWhile isPySpace)).1 ++
              deHyphenF fuel (takeWord (t2.dropWhile isPySpace)).2
          else c :: (takeWord rest).1 ++ '-' :: '\n' :: deHyphenF fuel t2
        | [] => c :: (takeWord rest).1 ++ '-' :: '\n' :: deHyphenF fuel t2
      | _ => c :: (takeWord rest).1 ++ deHyphenF fuel (takeWord rest).2
    else c :: deHyphenF fuel rest

/-- The scan of `deHyphenF` started with enough fuel: every recursive call
consumes at least one character, so `l.length` steps always suffice and the
fuel-exhausted branch is never taken. -/
def deHyphen (l : List Char) : List Char :=
  deHyphenF l.length l

/-- The `re.sub(r'\s+', ' ', text)` pass: every maximal whitespace run
becomes a single space. -/
def collapseWs : List Char → List Char
  | [] => []
  | [c] => if isPySpace c then [' '] else [c]
  | c :: d :: rest =>
    if isPySpace c then
      if isPySpace d then collapseWs (d :: rest)
      else ' ' :: collapseWs (d :: rest)
    else c :: collapseWs (d :: rest)

/-- Embedding of `UniversalDocumentProcessor._clean_text`: de-hyphenation
across line breaks, no-break spaces to spaces, whitespace collapse, strip;
empty input returns the empty string. -/
def clean_text (s : String) : String :=
  if s = "" then ""
  else
    String.mk (stripChars (collapseWs
      ((deHyphen s.data).map (fun c => if c = '\xa0' then ' ' else c))))

/-- Contiguous-substring test, Python's `needle in hay` on strings. -/
def containsSub (n : List Char) : List Char → Bool
  | [] => n.isEmpty
  | c :: t => if n.isPrefixOf (c :: t) then true else containsSub n t

/-- The `ignore_phrases` denylist of `UniversalDocumentProcessor`. -/
def ignore_phrases : List String :=
  ["всі права захищені", "видавництво", "зміст", "передмова",
   "www.", "http", "isbn", "удк", "ббк", "©"]

/-- Embedding of `UniversalDocumentProcessor._is_garbage`: true when the text
has fewer than 5 code points, or is non-empty and entirely digits
(`str.isdigit`), or its lowercasing contains a denylist phrase. -/
def is_garbage (s : String) : Bool :=
  let lower := s.data.map charLower
  if s.data.length < 5 ∨ (s.data ≠ [] ∧ s.data.all isAsciiDigit) then true
  else ignore_phrases.any (fun p => containsSub p.data lower)

/-- Case-insensitive prefix test (pattern already lowercase). -/
def ciStarts (pat : List Char) (l : List Char) : Bool :=
  pat.isPrefixOf (l.map charLower)

/-- Matching of `\d+` then anything: at least one digit at the head. -/
def headDigit : List Char → Bool
  | [] => false
  | c :: _ => isAsciiDigit c

/-- Embedding of `UniversalDocumentProcessor._extract_citation_ref`: the text
matches (anchored at the start, case-insensitively) one of
`^§\s?\d+`, `^Розділ`, `^Глава`, `^Тема`; if so the whole text is returned
as the new citation reference. -/
def extract_citation_ref (s : String) : Option String :=
  let l := s.data
  let sectionSym : Bool :=
    match l with
    | '§' :: t =>
      match t with
      | c :: t2 => if isPySpace c then headDigit t2 else headDigit t
      | [] => false
    | _ => false
  if sectionSym ∨ ciStarts "розділ".data l ∨ ciStarts "глава".data l ∨
      ciStarts "тема".data l then
    some s
  else none

/-- A raw fragment from the external document loader: its extracted text and
its optional zero-based page number (the code's
`doc.metadata.get('page', doc.metadata.get('page_number'))`). -/
structure RawFragment where
  page_content : String
  page : Option Nat
deriving Repr, DecidableEq

/-- A processed document as built in `load_and_process` before the external
splitter: injected content plus the metadata fields the code attaches. -/
structure TaggedFragment where
  page_content : String
  source : String
  «section» : String
  citation_ref : String
  page_number : Option String
deriving Repr, DecidableEq

/-- The `page_info` string of `load_and_process`: ", Стор. {page+1}" when a
zero-based page number is present, else the empty string. -/
def page_info (p : Option Nat) : String :=
  match p with
  | some n => ", Стор. " ++ toString (n + 1)
  | none => ""

/-- One iteration of the fragment loop of
`UniversalDocumentProcessor.load_and_process` (lines 78-103): clean the text,
drop it if garbage, otherwise update the (current_section, citation_ref)
state on a heading match and emit the tagged document. -/
def stepFrag (fp : String) (st : String × String) (f : RawFragment) :
    (String × String) × Option TaggedFragment :=
  let content := clean_text f.page_content
  if is_garbage content then (st, none)
  else
    let st2 :=
      match extract_citation_ref content with
      | some r => (r, r)
      | none => st
    let doc : TaggedFragment :=
      { page_content := "Розділ: " ++ st2.1 ++ "\nТекст: " ++ content
        source := fp
        «section» := st2.1
        citation_ref := st2.2 ++ page_info f.page
        page_number := f.page.map (fun n => toString (n + 1)) }
    (st2, some doc)

/-- The fragment loop of `load_and_process` run from a given state: emits the
processed documents in order, threading the section state. -/
def processFrom (fp : String) (st : String × String) :
    List RawFragment → List TaggedFragment
  | [] => []
  | f :: fs =>
    match stepFrag fp st f with
    | (st2, none) => processFrom fp st2 fs
    | (st2, some d) => d :: processFrom fp st2 fs

/-- Embedding of `load_and_process` restricted to its core loop (the external
loaders before it and the external splitter after it are collaborators, per
the specification): state starts at ("Вступ", "Загальний контекст"). -/
def load_and_process (fp : String) (frags : List RawFragment) :
    List TaggedFragment :=
  processFrom fp ("Вступ", "Загальний контекст") frags

/-- Embedding of `CitationManager._clean_filename`
(`os.path.basename`): the part of the path after the last '/'. -/
def clean_filename (p : String) : String :=
  String.mk ((p.data.reverse.takeWhile (fun c => c ≠ '/')).reverse)

/-- Matching of the regex alternation `(?:Стор\.?|Page|стор\.?)` under
`re.IGNORECASE` at the head of the input: on success returns the remainder
after the marker (and after the optional dot of the Стор/стор variants). -/
def matchMarker (t : List Char) : Option (List Char) :=
  if ciStarts "стор".data t then
    match t.drop 4 with
    | '.' :: r => some r
    | r => some r
  else if ciStarts "page".data t then some (t.drop 4)
  else none

/-- The part of the citation regex after the comma: `\s*` (greedy, may span
line breaks), the page-marker alternation, then `\s*(.*)`; returns the text
captured by the final group (up to the next line break). -/
def afterComma (t : List Char) : Option (List Char) :=
  match matchMarker (t.dropWhile isPySpace) with
  | some r => some ((r.dropWhile isPySpace).takeWhile (fun c => c ≠ '\n'))
  | none => none

/-- Backtracking search for `(.*),` within the current line: `pre` is the
text scanned so far on this line.  The greedy first group makes the regex
engine take the rightmost comma whose tail matches the rest of the pattern,
so a deeper match is preferred over a match at the current comma. -/
def searchLine (pre : List Char) : List Char → Option (List Char × List Char)
  | [] => none
  | c :: t =>
    if c = '\n' then none
    else
      match searchLine (pre ++ [c]) t with
      | some r => some r
      | none =>
        if c = ',' then
          match afterComma t with
          | some g2 => some (pre, g2)
          | none => none
        else none

/-- Embedding of `re.search` for the citation pattern
`(.*),\s*(?:Стор\.?|Page|стор\.?)\s*(.*)` (IGNORECASE): the first group
cannot cross a line break, so the search proceeds line by line; within the
first line that matches, the match starts at the beginning of the line and
the groups are as computed by `searchLine`. -/
def findCitationF : Nat → List Char → Option (List Char × List Char)
  | 0, _ => none
  | fuel + 1, s =>
    match searchLine [] s with
    | some r => some r
    | none =>
      match s.dropWhile (fun c => c ≠ '\n') with
      | [] => none
      | _ :: rest => findCitationF fuel rest

/-- The line-by-line search started with enough fuel: every retry drops at
least one character (the scanned line and its break), so `s.length + 1`
steps always suffice. -/
def findCitation (s : List Char) : Option (List Char × List Char) :=
  findCitationF (s.length + 1) s

/-- Embedding of `CitationManager._parse_citation_string`: on a regex match,
the stripped first group and the stripped second group; otherwise the whole
input with no page. -/
def parse_citation_string (s : String) : String × Option String :=
  match findCitation s.data with
  | some (t, p) => (String.mk (stripChars t), some (String.mk (stripChars p)))
  | none => (s, none)

/-- A retrieved chunk as the aggregator sees it: the two metadata fields
`process_sources` reads, each possibly absent (`dict.get` with default). -/
structure Chunk where
  citation_ref : Option String
  source : Option String
deriving Repr, DecidableEq

/-- The grouping key `(title, filename)` of a chunk, with the code's
defaults for absent metadata. -/
def groupKey (c : Chunk) : String × String :=
  let raw_ref := c.citation_ref.getD "Загальний контекст"
  let filepath := c.source.getD "Невідомий файл"
  ((parse_citation_string raw_ref).1, clean_filename filepath)

/-- The page token of a chunk (second component of the parsed citation). -/
def chunkPage (c : Chunk) : Option String :=
  (parse_citation_string (c.citation_ref.getD "Загальний контекст")).2

/-- Python truthiness of the optional page token: present and non-empty. -/
def pageTruthy (p : Option String) : Bool :=
  match p with
  | some s => s ≠ ""
  | none => false

/-- Adds a page token to a set modelled as a duplicate-free list in insertion
order (`set.add`). -/
def addToSet (pages : List String) (p : String) : List String :=
  if p ∈ pages then pages else pages ++ [p]

/-- One iteration of the grouping loop of `process_sources`: create the
chunk's group if absent, then add its page token when truthy. -/
def addChunk (groups : List ((String × String) × List String)) (c : Chunk) :
    List ((String × String) × List String) :=
  let k := groupKey c
  let p := chunkPage c
  let groups2 :=
    if groups.any (fun g => g.1 = k) then groups else groups ++ [(k, [])]
  if pageTruthy p then
    groups2.map (fun g => if g.1 = k then (g.1, addToSet g.2 (p.getD "")) else g)
  else groups2

/-- The `grouped_sources` dict of `process_sources` (Python dicts preserve
insertion order): an association list from (title, filename) to the page
set in insertion order. -/
def buildGroups (docs : List Chunk) : List ((String × String) × List String) :=
  docs.foldl addChunk []

/-- Lookup of a group's page set (`grouped_sources[(title, filename)]`). -/
def findPages (groups : List ((String × String) × List String))
    (k : String × String) : List String :=
  match groups.find? (fun g => g.1 = k) with
  | some g => g.2
  | none => []

/-- Python's `<` on `(str, str)` tuples: lexicographic. -/
def pairLt (a b : String × String) : Bool :=
  if strLt a.1 b.1 then true
  else if strLt b.1 a.1 then false
  else strLt a.2 b.2

/-- The sort key `lambda x: (x[1], x[0])` order on (title, filename) keys:
compare by (filename, title). -/
def keyOrdLt (a b : String × String) : Bool :=
  pairLt (a.2, a.1) (b.2, b.1)

/-- Stable insertion into a sorted list under a strict order: skip while the
existing element is strictly below the new one.  This is the same ordering
Python's stable `sorted` produces. -/
def insertKey (x : String × String) : List (String × String) →
    List (String × String)
  | [] => [x]
  | y :: ys => if keyOrdLt y x then y :: insertKey x ys else x :: y :: ys

/-- The `sorted(grouped_sources.keys(), key=lambda x: (x[1], x[0]))` call:
the (title, filename) keys ordered by (filename, title). -/
def sortKeys : List (String × String) → List (String × String)
  | [] => []
  | x :: xs => insertKey x (sortKeys xs)

/-- The sort key `int(x) if x.isdigit() else str(x)` of the page sort: an
integer for purely-numeric tokens, the string itself otherwise. -/
def pageKey (s : String) : Nat ⊕ String :=
  if s.data ≠ [] ∧ s.data.all isAsciiDigit then
    Sum.inl (s.data.foldl (fun n c => n * 10 + (c.toNat - 48)) 0)
  else Sum.inr s

/-- Python's `<` on the mixed `int`/`str` sort keys: comparing an `int` key
with a `str` key raises `TypeError`, modelled as `Except.error`. -/
def keyLt (a b : Nat ⊕ String) : Except Unit Bool :=
  match a, b with
  | Sum.inl m, Sum.inl n => Except.ok (decide (m < n))
  | Sum.inr s, Sum.inr t => Except.ok (strLt s t)
  | _, _ => Except.error ()

/-- Fallible stable insertion for the page sort: propagates the `TypeError`
of a mixed-type key comparison. -/
def insertPage (x : String) : List String → Except Unit (List String)
  | [] => Except.ok [x]
  | y :: ys => do
    let b ← keyLt (pageKey y) (pageKey x)
    if b then
      let r ← insertPage x ys
      Except.ok (y :: r)
    else Except.ok (x :: y :: ys)

/-- The `sorted(list(pages), key=lambda x: int(x) if x.isdigit() else str(x))`
call of `process_sources`: a stable sort by the mixed `int`/`str` key, which
raises (`Except.error`) as soon as keys of both types are compared. -/
def sortPages : List String → Except Unit (List String)
  | [] => Except.ok []
  | x :: xs => do
    let r ← sortPages xs
    insertPage x r

/-- Rendering of one group line of `process_sources`: with pages,
"{title} (Стор. {pages}) — [{filename}]"; without, "{title} — [{filename}]".
-/
def renderGroup (groups : List ((String × String) × List String))
    (k : String × String) : Except Unit String :=
  let pages := findPages groups k
  if pages.isEmpty then Except.ok (k.1 ++ " — [" ++ k.2 ++ "]")
  else do
    let sp ← sortPages pages
    Except.ok (k.1 ++ " (Стор. " ++ String.intercalate ", " sp ++ ") — [" ++
      k.2 ++ "]")

/-- Rendering of all group lines in sorted key order. -/
def renderAll (groups : List ((String × String) × List String)) :
    List (String × String) → Except Unit (List String)
  | [] => Except.ok []
  | k :: ks => do
    let l ← renderGroup groups k
    let ls ← renderAll groups ks
    Except.ok (l :: ls)

/-- The numbering `f"{i}. {line}"` of the output lines, starting at `i`. -/
def numberFrom (i : Nat) : List String → List String
  | [] => []
  | l :: ls => (toString i ++ ". " ++ l) :: numberFrom (i + 1) ls

/-- The separator line `"=" * 30`. -/
def sepLine : String :=
  String.mk (List.replicate 30 '=')

/-- Embedding of `CitationManager.process_sources`: empty input yields the
empty string; otherwise group, sort, render and number; the page sort's
`TypeError` propagates as `Except.error`. -/
def process_sources (docs : List Chunk) : Except Unit String :=
  if docs.isEmpty then Except.ok ""
  else do
    let groups := buildGroups docs
    let lines ← renderAll groups (sortKeys (groups.map (fun g => g.1)))
    if lines.isEmpty then Except.ok ""
    else
      Except.ok ("\n\n" ++ sepLine ++ "\nДжерела:\n" ++
        String.intercalate "\n" (numberFrom 1 lines))

/-- Embedding of `CitationManager.merge`: the answer concatenated with the
citation block (an exception from `process_sources` propagates). -/
def merge (answer : String) (docs : List Chunk) : Except Unit String := do
  let citations ← process_sources docs
  Except.ok (answer ++ citations)

instance {ε α : Type} [DecidableEq ε] [DecidableEq α] : DecidableEq (Except ε α) :=
  fun a b =>
    match a, b with
    | Except.ok x, Except.ok y =>
      if h : x = y then Decidable.isTrue (by rw [h])
      else Decidable.isFalse (fun he => h (Except.ok.inj he))
    | Except.error x, Except.error y =>
      if h : x = y then Decidable.isTrue (by rw [h])
      else Decidable.isFalse (fun he => h (Except.error.inj he))
    | Except.ok _, Except.error _ => Decidable.isFalse (fun he => Except.noConfusion he)
    | Except.error _, Except.ok _ => Decidable.isFalse (fun he => Except.noConfusion he)

/-- Whether a character list starts with a word character. -/
def wordHead : List Char → Bool
  | [] => false
  | c :: _ => isWordChar c

theorem word_not_space {c : Char} (h : isWordChar c = true) :
    isPySpace c = false := by
  by_contra hne
  have hs : isPySpace c = true := by
    cases hb : isPySpace c
    · exact absurd hb hne
    · rfl
  simp only [isPySpace, decide_eq_true_eq] at hs
  rcases hs with h1 | h1 | h1 | h1 | h1 | h1 | h1 <;> subst h1 <;>
    simp [isWordChar, isAsciiDigit] at h

theorem takeWord_split (u t : List Char) (hu : u.all isWordChar = true)
    (ht : wordHead t = false) : takeWord (u ++ t) = (u, t) := by
  induction u with
  | nil =>
    cases t with
    | nil => rfl
    | cons c t2 =>
      simp only [wordHead] at ht
      simp [takeWord, ht]
  | cons c u2 ih =>
    simp only [List.all_cons, Bool.and_eq_true] at hu
    have := ih hu.2
    simp [takeWord, hu.1, this]

theorem deHyphenF_nil (fuel : Nat) : deHyphenF fuel [] = [] := by
  cases fuel <;> rfl

theorem deHyphenF_merge (fuel : Nat) (c : Char) (u2 v : List Char) (d : Char)
    (v2 : List Char) (hv : v = d :: v2)
    (hu : (c :: u2).all isWordChar = true) (hva : v.all isWordChar = true) :
    deHyphenF (fuel + 1) (c :: u2 ++ '-' :: '\n' :: v) = c :: u2 ++ v := by
  simp only [List.all_cons, Bool.and_eq_true] at hu
  have h1 : takeWord (u2 ++ '-' :: '\n' :: v) = (u2, '-' :: '\n' :: v) :=
    takeWord_split u2 _ hu.2 (by simp [wordHead, isWordChar, isAsciiDigit])
  have hd : isWordChar d = true := by
    subst hv
    simp only [List.all_cons, Bool.and_eq_true] at hva
    exact hva.1
  have h2 : v.dropWhile isPySpace = v := by
    subst hv
    simp [List.dropWhile, word_not_space hd]
  have h3 : takeWord v = (v, []) := by
    have := takeWord_split v [] (by simpa using hva) (by simp [wordHead])
    simpa using this
  subst hv
  simp [deHyphenF, hu.1, h1, h2, h3, hd, deHyphenF_nil]

theorem map_nbsp_of_word (l : List Char) (h : l.all isWordChar = true) :
    l.map (fun c => if c = '\xa0' then ' ' else c) = l := by
  induction l with
  | nil => rfl
  | cons c t ih =>
    simp only [List.all_cons, Bool.and_eq_true] at h
    have hc : c ≠ '\xa0' := by
      intro he
      subst he
      simp [isWordChar, isAsciiDigit] at h
    simp [hc, ih h.2]

theorem collapseWs_id : ∀ l : List Char,
    l.all (fun c => !isPySpace c) = true → collapseWs l = l
  | [], _ => rfl
  | [c], h => by
    simp only [List.all_cons, List.all_nil, Bool.and_true,
      Bool.not_eq_true'] at h
    simp [collapseWs, h]
  | c :: d :: rest, h => by
    have h2 : (d :: rest).all (fun c => !isPySpace c) = true := by
      simp only [List.all_cons, Bool.and_eq_true] at h ⊢
      exact h.2
    simp only [List.all_cons, Bool.and_eq_true, Bool.not_eq_true'] at h
    simp [collapseWs, h.1, collapseWs_id (d :: rest) h2]

theorem dropWhile_id_of_all (p : Char → Bool) (l : List Char)
    (h : l.all (fun c => !p c) = true) : l.dropWhile p = l := by
  cases l with
  | nil => rfl
  | cons c t =>
    simp only [List.all_cons, Bool.and_eq_true, Bool.not_eq_true'] at h
    simp [List.dropWhile, h.1]

theorem stripChars_id (l : List Char)
    (h : l.all (fun c => !isPySpace c) = true) : stripChars l = l := by
  have h2 : l.reverse.all (fun c => !isPySpace c) = true := by
    simpa using h
  rw [stripChars, dropWhile_id_of_all _ l h, dropWhile_id_of_all _ l.reverse h2,
    List.reverse_reverse]

theorem all_word_no_space (l : List Char) (h : l.all isWordChar = true) :
    l.all (fun c => !isPySpace c) = true := by
  induction l with
  | nil => rfl
  | cons c t ih =>
    simp only [List.all_cons, Bool.and_eq_true] at h ⊢
    exact ⟨by simp [word_not_space h.1], ih h.2⟩

/-- Claim C9: normalization merges a word token ending in a hyphen that is
immediately followed by a line break and a continuation word token into one
word, with the hyphen and the break removed; in particular
"inter-\nnational" normalizes to "international". -/
theorem c9_dehyphenation :
    (∀ u v : List Char, u ≠ [] → v ≠ [] → u.all isWordChar = true →
      v.all isWordChar = true →
      clean_text (String.mk (u ++ '-' :: '\n' :: v)) = String.mk (u ++ v)) ∧
    clean_text "inter-\nnational" = "international" := by
  constructor
  · intro u v hu0 hv0 hu hv
    obtain ⟨c, u2, rfl⟩ : ∃ c u2, u = c :: u2 := by
      cases u with
      | nil => exact absurd rfl hu0
      | cons c u2 => exact ⟨c, u2, rfl⟩
    obtain ⟨d, v2, hv2⟩ : ∃ d v2, v = d :: v2 := by
      cases v with
      | nil => exact absurd rfl hv0
      | cons d v2 => exact ⟨d, v2, rfl⟩
    have hne : String.mk (c :: u2 ++ '-' :: '\n' :: v) ≠ "" := by
      intro he
      have := congrArg String.data he
      simp at this
    rw [clean_text, if_neg hne]
    have hlen : (String.mk (c :: u2 ++ '-' :: '\n' :: v)).data.length =
        (u2 ++ '-' :: '\n' :: v).length + 1 := by
      simp
    have hdh : deHyphen (c :: u2 ++ '-' :: '\n' :: v) = c :: u2 ++ v := by
      rw [deHyphen]
      rw [show (c :: u2 ++ '-' :: '\n' :: v).length =
        (u2 ++ '-' :: '\n' :: v).length + 1 by simp]
      exact deHyphenF_merge _ c u2 v d v2 hv2 hu hv
    have hall : (c :: u2 ++ v).all isWordChar = true := by
      simp only [List.all_append, Bool.and_eq_true] at hu hv ⊢
      simp only [List.all_cons, Bool.and_eq_true] at hu ⊢
      exact ⟨⟨hu.1, hu.2⟩, hv⟩
    have hnos := all_word_no_space _ hall
    show String.mk (stripChars (collapseWs
      ((deHyphen (String.mk (c :: u2 ++ '-' :: '\n' :: v)).data).map _))) = _
    rw [show (String.mk (c :: u2 ++ '-' :: '\n' :: v)).data =
      c :: u2 ++ '-' :: '\n' :: v from rfl]
    rw [hdh, map_nbsp_of_word _ hall, collapseWs_id _ hnos, stripChars_id _ hnos]
  · decide

/-- Witness for C9 at the concrete input of the claim. -/
theorem c9_dehyphenation_witness :
    "inter".data ≠ [] ∧ "national".data ≠ [] ∧
    clean_text (String.mk ("inter".data ++ '-' :: '\n' :: "national".data)) =
      String.mk ("inter".data ++ "national".data) := by
  refine ⟨by decide, by decide, c9_dehyphenation.1 _ _ (by decide) (by decide)
    (by decide) (by decide)⟩

theorem stepFrag_garbage (fp : String) (st : String × String) (f : RawFragment)
    (h : is_garbage (clean_text f.page_content) = true) :
    stepFrag fp st f = (st, none) := by
  simp [stepFrag, h]

/-- Claim C4: a fragment whose cleaned text is classified as garbage never
changes the (current_section, current_citation_ref) state and never emits a
tagged fragment; removing it from any position of the stream leaves the
output unchanged. -/
theorem c4_garbage_inert :
    (∀ (fp : String) (st : String × String) (f : RawFragment),
      is_garbage (clean_text f.page_content) = true →
      stepFrag fp st f = (st, none)) ∧
    (∀ (fp : String) (f : RawFragment),
      is_garbage (clean_text f.page_content) = true →
      ∀ (xs ys : List RawFragment) (st : String × String),
        processFrom fp st (xs ++ f :: ys) = processFrom fp st (xs ++ ys)) := by
  refine ⟨stepFrag_garbage, ?_⟩
  intro fp f hf xs
  induction xs with
  | nil =>
    intro ys st
    simp only [List.nil_append, processFrom, stepFrag_garbage fp st f hf]
  | cons x xs ih =>
    intro ys st
    simp only [List.cons_append, processFrom]
    cases hx : stepFrag fp st x with
    | mk st2 emitted =>
      cases emitted with
      | none => exact ih ys st2
      | some d => simp [ih ys st2]

/-- Witness for C4: the fragment "§ 5" is garbage (length below 5) although
its text matches a heading pattern; it is dropped and the state is kept. -/
theorem c4_garbage_inert_witness :
    is_garbage (clean_text "§ 5") = true ∧
    extract_citation_ref (clean_text "§ 5") = some "§ 5" ∧
    stepFrag "b.pdf" ("Вступ", "Загальний контекст") ⟨"§ 5", some 3⟩ =
      (("Вступ", "Загальний контекст"), none) ∧
    processFrom "b.pdf" ("Вступ", "Загальний контекст")
        ([⟨"Проміжний текст тут", some 0⟩] ++ ⟨"§ 5", some 3⟩ ::
          [⟨"Ще один текст", none⟩]) =
      processFrom "b.pdf" ("Вступ", "Загальний контекст")
        ([⟨"Проміжний текст тут", some 0⟩] ++ [⟨"Ще один текст", none⟩]) := by
  refine ⟨by decide, by decide, ?_, ?_⟩
  · exact c4_garbage_inert.1 "b.pdf" _ _ (by decide)
  · exact c4_garbage_inert.2 "b.pdf" ⟨"§ 5", some 3⟩ (by decide) _ _ _

/-- Claim C8: an emitted fragment carrying a zero-based page number `n` gets
page_number metadata `toString (n+1)` (1-indexed) and a citation_ref ending
in the suffix ", Стор. {n+1}"; with no page number there is no suffix and no
page_number metadata. -/
theorem c8_page_display (fp : String) (st : String × String) (f : RawFragment)
    (st2 : String × String) (d : TaggedFragment)
    (h : stepFrag fp st f = (st2, some d)) :
    (∀ n : Nat, f.page = some n →
      d.page_number = some (toString (n + 1)) ∧
      d.citation_ref = st2.2 ++ ", Стор. " ++ toString (n + 1)) ∧
    (f.page = none → d.page_number = none ∧ d.citation_ref = st2.2) := by
  rw [stepFrag] at h
  by_cases hg : is_garbage (clean_text f.page_content) = true
  · simp [hg] at h
  · simp only [Bool.not_eq_true] at hg
    simp only [hg, Bool.false_eq_true, if_false] at h
    have hst : st2 =
        (match extract_citation_ref (clean_text f.page_content) with
          | some r => (r, r)
          | none => st) := by
      cases h2 : extract_citation_ref (clean_text f.page_content) <;>
        simp [h2] at h ⊢ <;> exact h.1.symm
    constructor
    · intro n hn
      cases h2 : extract_citation_ref (clean_text f.page_content) <;>
        simp [h2, hn, page_info] at h ⊢ <;>
        rcases h with ⟨hst2, hd⟩ <;>
        rw [← hd] <;>
        simp [← hst2, String.append_assoc]
    · intro hn
      cases h2 : extract_citation_ref (clean_text f.page_content) <;>
        simp [h2, hn, page_info] at h ⊢ <;>
        rcases h with ⟨hst2, hd⟩ <;>
        rw [← hd] <;>
        simp [← hst2]

/-- Witness for C8 at zero-based page 0: the display and metadata are "1". -/
theorem c8_page_display_witness :
    stepFrag "b.pdf" ("Вступ", "Загальний контекст")
        ⟨"Проміжний текст тут", some 0⟩ =
      (("Вступ", "Загальний контекст"),
        some ⟨"Розділ: Вступ\nТекст: Проміжний текст тут", "b.pdf", "Вступ",
          "Загальний контекст, Стор. 1", some "1"⟩) ∧
    (some "1" = some (toString (0 + 1)) ∧
      "Загальний контекст, Стор. 1" =
        "Загальний контекст" ++ ", Стор. " ++ toString (0 + 1)) := by
  refine ⟨by decide, ?_⟩
  have := (c8_page_display "b.pdf" ("Вступ", "Загальний контекст")
    ⟨"Проміжний текст тут", some 0⟩ ("Вступ", "Загальний контекст")
    ⟨"Розділ: Вступ\nТекст: Проміжний текст тут", "b.pdf", "Вступ",
      "Загальний контекст, Стор. 1", some "1"⟩ (by decide)).1 0 rfl
  exact this

theorem processFrom_no_heading (fp : String) (r : String) :
    ∀ gs : List RawFragment,
      (∀ g ∈ gs, extract_citation_ref (clean_text g.page_content) = none) →
      ∀ d ∈ processFrom fp (r, r) gs,
        d.«section» = r ∧ ∃ g ∈ gs, d.citation_ref = r ++ page_info g.page
  | [], _, d, hd => by simp [processFrom] at hd
  | g :: gs, hgs, d, hd => by
    have hg : extract_citation_ref (clean_text g.page_content) = none :=
      hgs g (List.mem_cons_self g gs)
    have hgs2 : ∀ x ∈ gs, extract_citation_ref (clean_text x.page_content) = none :=
      fun x hx => hgs x (List.mem_cons_of_mem g hx)
    by_cases hgarb : is_garbage (clean_text g.page_content) = true
    · rw [processFrom, stepFrag_garbage fp (r, r) g hgarb] at hd
      obtain ⟨hs, x, hx, hc⟩ := processFrom_no_heading fp r gs hgs2 d hd
      exact ⟨hs, x, List.mem_cons_of_mem g hx, hc⟩
    · simp only [Bool.not_eq_true] at hgarb
      rw [processFrom] at hd
      simp only [stepFrag, hgarb, Bool.false_eq_true, if_false, hg] at hd
      rcases List.mem_cons.1 hd with hde | hde
      · subst hde
        exact ⟨rfl, g, List.mem_cons_self g gs, rfl⟩
      · obtain ⟨hs, x, hx, hc⟩ := processFrom_no_heading fp r gs hgs2 d hde
        exact ⟨hs, x, List.mem_cons_of_mem g hx, hc⟩

/-- Claim C1: a non-garbage fragment matching a heading pattern updates both
components of the tracker state before being emitted: it is itself emitted
with its own heading as section and citation_ref (plus its page suffix), and
every later fragment, as long as no further fragment matches a heading,
carries that heading as its section and as the base of its citation_ref. -/
theorem c1_heading_sticky (fp : String) (st : String × String) (r : String)
    (f : RawFragment) (gs : List RawFragment)
    (hf : is_garbage (clean_text f.page_content) = false)
    (hr : extract_citation_ref (clean_text f.page_content) = some r)
    (hgs : ∀ g ∈ gs, extract_citation_ref (clean_text g.page_content) = none) :
    processFrom fp st (f :: gs) =
      ⟨"Розділ: " ++ r ++ "\nТекст: " ++ clean_text f.page_content, fp, r,
        r ++ page_info f.page, f.page.map (fun n => toString (n + 1))⟩ ::
      processFrom fp (r, r) gs ∧
    ∀ d ∈ processFrom fp (r, r) gs,
      d.«section» = r ∧ ∃ g ∈ gs, d.citation_ref = r ++ page_info g.page := by
  constructor
  · rw [processFrom]
    simp only [stepFrag, hf, Bool.false_eq_true, if_false, hr]
  · exact processFrom_no_heading fp r gs hgs

/-- Witness for C1: a heading fragment followed by a plain fragment and a
garbage fragment; the heading is attributed to itself and to the later
emitted fragment. -/
theorem c1_heading_sticky_witness :
    is_garbage (clean_text "Розділ 3. Аналіз даних") = false ∧
    extract_citation_ref (clean_text "Розділ 3. Аналіз даних") =
      some "Розділ 3. Аналіз даних" ∧
    processFrom "b.pdf" ("Вступ", "Загальний контекст")
        [⟨"Розділ 3. Аналіз даних", some 0⟩, ⟨"Проміжний текст тут", some 1⟩] =
      ⟨"Розділ: Розділ 3. Аналіз даних\nТекст: Розділ 3. Аналіз даних",
        "b.pdf", "Розділ 3. Аналіз даних", "Розділ 3. Аналіз даних, Стор. 1",
        some "1"⟩ ::
      processFrom "b.pdf" ("Розділ 3. Аналіз даних", "Розділ 3. Аналіз даних")
        [⟨"Проміжний текст тут", some 1⟩] ∧
    ∀ d ∈ processFrom "b.pdf"
        ("Розділ 3. Аналіз даних", "Розділ 3. Аналіз даних")
        [⟨"Проміжний текст тут", some 1⟩],
      d.«section» = "Розділ 3. Аналіз даних" ∧
      ∃ g ∈ [(⟨"Проміжний текст тут", some 1⟩ : RawFragment)],
        d.citation_ref = "Розділ 3. Аналіз даних" ++ page_info g.page := by
  refine ⟨by decide, by decide, ?_⟩
  have h := c1_heading_sticky "b.pdf" ("Вступ", "Загальний контекст")
    "Розділ 3. Аналіз даних" ⟨"Розділ 3. Аналіз даних", some 0⟩
    [⟨"Проміжний текст тут", some 1⟩] (by decide) (by decide)
    (by decide)
  refine ⟨?_, h.2⟩
  have h1 := h.1
  rw [show clean_text "Розділ 3. Аналіз даних" = "Розділ 3. Аналіз даних"
    from by decide] at h1
  rw [show ("Розділ: " ++ "Розділ 3. Аналіз даних" ++
      "\nТекст: " ++ "Розділ 3. Аналіз даних") =
    "Розділ: Розділ 3. Аналіз даних\nТекст: Розділ 3. Аналіз даних"
    from by decide] at h1
  rw [show ("Розділ 3. Аналіз даних" ++ page_info (some 0)) =
    "Розділ 3. Аналіз даних, Стор. 1" from by decide] at h1
  exact h1

/-- Claim C3: when the citation regex matches, parse returns the stripped
first group (text before the comma) and the stripped second group (text
after the page marker); when nothing matches it returns the entire input
unchanged with no page; including the claim's three concrete instances
(English marker, Ukrainian marker with trailing punctuation, no match). -/
theorem c3_parse_citation :
    (∀ (s : String) (t p : List Char), findCitation s.data = some (t, p) →
      parse_citation_string s =
        (String.mk (stripChars t), some (String.mk (stripChars p)))) ∧
    (∀ s : String, findCitation s.data = none →
      parse_citation_string s = (s, none)) ∧
    parse_citation_string "Chapter 3, Page 12" = ("Chapter 3", some "12") ∧
    parse_citation_string "Chapter 3, стор. 12" = ("Chapter 3", some "12") ∧
    parse_citation_string "Introduction" = ("Introduction", none) := by
  refine ⟨?_, ?_, by decide, by decide, by decide⟩
  · intro s t p h
    simp [parse_citation_string, h]
  · intro s h
    simp [parse_citation_string, h]

/-- Witness for C3 at the concrete matching input "Chapter 3, Page 12". -/
theorem c3_parse_citation_witness :
    findCitation "Chapter 3, Page 12".data =
      some ("Chapter 3".data, "12".data) ∧
    parse_citation_string "Chapter 3, Page 12" =
      (String.mk (stripChars "Chapter 3".data),
        some (String.mk (stripChars "12".data))) := by
  exact ⟨by decide, c3_parse_citation.1 "Chapter 3, Page 12" _ _ (by decide)⟩

/-- Claim C6: merge is the answer concatenated with the citation block, and
an empty chunk list yields the answer verbatim (the block is empty with no
separator). -/
theorem c6_merge_empty :
    process_sources [] = Except.ok "" ∧
    (∀ answer : String, merge answer [] = Except.ok answer) ∧
    (∀ (answer r : String) (docs : List Chunk),
      process_sources docs = Except.ok r →
      merge answer docs = Except.ok (answer ++ r)) ∧
    merge "Answer text" [] = Except.ok "Answer text" := by
  refine ⟨rfl, ?_, ?_, by decide⟩
  · intro answer
    show Except.ok (answer ++ "") = Except.ok answer
    rw [String.append_empty]
  · intro answer r docs h
    simp only [merge, h]
    rfl

/-- Witness for C6 at the concrete input of the claim. -/
theorem c6_merge_empty_witness :
    process_sources [] = Except.ok "" ∧
    merge "Answer text" [] = Except.ok ("Answer text" ++ "") := by
  exact ⟨rfl, c6_merge_empty.2.2.1 "Answer text" "" [] rfl⟩

/-- The integer value `int(x)` of a digit string. -/
def natVal (s : String) : Nat :=
  s.data.foldl (fun n c => n * 10 + (c.toNat - 48)) 0

/-- Python's `x.isdigit()` (restricted to ASCII digits): non-empty and all
digits — exactly the tokens the page sort keys as integers. -/
def isNumTok (s : String) : Bool :=
  s.data ≠ [] ∧ s.data.all isAsciiDigit

/-- Comparison of numeric page tokens by integer value. -/
def pageNumLe (a b : String) : Prop :=
  natVal a ≤ natVal b

instance : DecidableRel pageNumLe :=
  fun a b => inferInstanceAs (Decidable (natVal a ≤ natVal b))

instance : IsTotal String pageNumLe :=
  ⟨fun a b => Nat.le_total (natVal a) (natVal b)⟩

instance : IsTrans String pageNumLe :=
  ⟨fun _ _ _ => Nat.le_trans⟩

theorem pageKey_num {s : String} (h : isNumTok s = true) :
    pageKey s = Sum.inl (natVal s) := by
  simp only [isNumTok, decide_eq_true_eq] at h
  rw [pageKey, if_pos h]
  rfl

theorem pageKey_str {s : String} (h : isNumTok s = false) :
    pageKey s = Sum.inr s := by
  simp only [isNumTok, decide_eq_false_iff_not] at h
  rw [pageKey, if_neg h]

theorem except_bind_ok {ε α β : Type} (a : α) (f : α → Except ε β) :
    (do
      let x ← Except.ok (ε := ε) a
      f x) = f a :=
  rfl

theorem keyLt_inl (a b : Nat) :
    keyLt (Sum.inl a) (Sum.inl b) = Except.ok (decide (a < b)) :=
  rfl

theorem insertPage_num_eq {x : String} (hx : isNumTok x = true) :
    ∀ l : List String, (∀ y ∈ l, isNumTok y = true) →
      insertPage x l = Except.ok (List.orderedInsert pageNumLe x l)
  | [], _ => rfl
  | y :: ys, hl => by
    have hy : isNumTok y = true := hl y (List.mem_cons_self y ys)
    have hys : ∀ z ∈ ys, isNumTok z = true :=
      fun z hz => hl z (List.mem_cons_of_mem y hz)
    rw [insertPage, pageKey_num hy, pageKey_num hx, keyLt_inl]
    by_cases hlt : natVal y < natVal x
    · have hd : decide (natVal y < natVal x) = true := decide_eq_true hlt
      have hle : ¬ pageNumLe x y := fun hc => Nat.not_le_of_lt hlt hc
      rw [hd, except_bind_ok, if_pos rfl, insertPage_num_eq hx ys hys,
        except_bind_ok, List.orderedInsert, if_neg hle]
    · have hd : decide (natVal y < natVal x) = false := by
        simp only [decide_eq_false_iff_not]
        exact hlt
      have hle : pageNumLe x y := Nat.le_of_not_lt hlt
      rw [hd, except_bind_ok, if_neg (by simp), List.orderedInsert, if_pos hle]

theorem sortPages_num_eq :
    ∀ l : List String, (∀ y ∈ l, isNumTok y = true) →
      sortPages l = Except.ok (List.insertionSort pageNumLe l)
  | [], _ => rfl
  | x :: xs, hl => by
    have hx : isNumTok x = true := hl x (List.mem_cons_self x xs)
    have hxs : ∀ z ∈ xs, isNumTok z = true :=
      fun z hz => hl z (List.mem_cons_of_mem x hz)
    have hsorted : ∀ z ∈ List.insertionSort pageNumLe xs, isNumTok z = true :=
      fun z hz => hxs z ((List.mem_insertionSort pageNumLe).1 hz)
    rw [sortPages, sortPages_num_eq xs hxs, except_bind_ok,
      insertPage_num_eq hx _ hsorted]
    rfl

/-- Claim C7: on a page set of purely-numeric tokens the sort succeeds and
orders the tokens by integer value ascending (it equals an insertion sort
under the integer-value order, which is sorted and a permutation of the
input); in particular {"10", "2", "9"} renders as "2, 9, 10". -/
theorem c7_numeric_page_sort :
    (∀ l : List String, (∀ x ∈ l, isNumTok x = true) →
      sortPages l = Except.ok (List.insertionSort pageNumLe l) ∧
      List.Sorted pageNumLe (List.insertionSort pageNumLe l) ∧
      (List.insertionSort pageNumLe l).Perm l) ∧
    sortPages ["10", "2", "9"] = Except.ok ["2", "9", "10"] ∧
    process_sources
        [⟨some "Тема 1, Стор. 10", some "b.pdf"⟩,
         ⟨some "Тема 1, Стор. 2", some "b.pdf"⟩,
         ⟨some "Тема 1, Стор. 9", some "b.pdf"⟩] =
      Except.ok ("\n\n" ++ sepLine ++
        "\nДжерела:\n1. Тема 1 (Стор. 2, 9, 10) — [b.pdf]") := by
  refine ⟨?_, by decide, by decide⟩
  intro l hl
  exact ⟨sortPages_num_eq l hl, List.sorted_insertionSort pageNumLe l,
    List.perm_insertionSort pageNumLe l⟩

/-- Witness for C7 at the claim's page set. -/
theorem c7_numeric_page_sort_witness :
    (∀ x ∈ ["10", "2", "9"], isNumTok x = true) ∧
    sortPages ["10", "2", "9"] =
      Except.ok (List.insertionSort pageNumLe ["10", "2", "9"]) := by
  exact ⟨by decide, (c7_numeric_page_sort.1 ["10", "2", "9"] (by decide)).1⟩

theorem except_bind_error {ε α β : Type} (e : ε) (f : α → Except ε β) :
    (do
      let x ← Except.error (α := α) e
      f x) = Except.error e :=
  rfl

theorem keyLt_str_num (s : String) (n : Nat) :
    keyLt (Sum.inr s) (Sum.inl n) = Except.error () :=
  rfl

theorem keyLt_num_str (n : Nat) (s : String) :
    keyLt (Sum.inl n) (Sum.inr s) = Except.error () :=
  rfl

theorem insertPage_homog {b : Bool} {x : String} (hx : isNumTok x = b) :
    ∀ l : List String, (∀ y ∈ l, isNumTok y = b) →
      ∃ r, insertPage x l = Except.ok r ∧ (∀ y ∈ r, y = x ∨ y ∈ l) ∧ r ≠ []
  | [], _ => ⟨[x], rfl, by simp, by simp⟩
  | y :: ys, hl => by
    have hy : isNumTok y = b := hl y (List.mem_cons_self y ys)
    have hys : ∀ z ∈ ys, isNumTok z = b :=
      fun z hz => hl z (List.mem_cons_of_mem y hz)
    have hkey : ∃ bb, keyLt (pageKey y) (pageKey x) = Except.ok bb := by
      cases b with
      | true => exact ⟨_, by rw [pageKey_num hy, pageKey_num hx, keyLt_inl]⟩
      | false =>
        exact ⟨strLt y x, by
          rw [pageKey_str hy, pageKey_str hx]
          rfl⟩
    obtain ⟨bb, hbb⟩ := hkey
    rw [insertPage, hbb, except_bind_ok]
    cases bb with
    | false =>
      refine ⟨x :: y :: ys, by rw [if_neg (by simp)], ?_, by simp⟩
      intro z hz
      rcases List.mem_cons.1 hz with h | h
      · exact Or.inl h
      · exact Or.inr h
    | true =>
      obtain ⟨r2, h1, h2, h3⟩ := insertPage_homog hx ys hys
      rw [if_pos rfl, h1, except_bind_ok]
      refine ⟨y :: r2, rfl, ?_, by simp⟩
      intro z hz
      rcases List.mem_cons.1 hz with h | h
      · exact Or.inr (h ▸ List.mem_cons_self y ys)
      · rcases h2 z h with h4 | h4
        · exact Or.inl h4
        · exact Or.inr (List.mem_cons_of_mem y h4)

theorem sortPages_homog {b : Bool} :
    ∀ l : List String, (∀ y ∈ l, isNumTok y = b) →
      ∃ r, sortPages l = Except.ok r ∧ (∀ y ∈ r, y ∈ l) ∧ (l ≠ [] → r ≠ [])
  | [], _ => ⟨[], rfl, by simp, fun h => absurd rfl h⟩
  | x :: xs, hl => by
    have hx : isNumTok x = b := hl x (List.mem_cons_self x xs)
    have hxs : ∀ z ∈ xs, isNumTok z = b :=
      fun z hz => hl z (List.mem_cons_of_mem x hz)
    obtain ⟨r, h1, h2, _⟩ := sortPages_homog xs hxs
    have hr : ∀ z ∈ r, isNumTok z = b := fun z hz => hxs z (h2 z hz)
    obtain ⟨r2, hi1, hi2, hi3⟩ := insertPage_homog hx r hr
    rw [sortPages, h1, except_bind_ok, hi1]
    refine ⟨r2, rfl, ?_, fun _ => hi3⟩
    intro z hz
    rcases hi2 z hz with h | h
    · exact h ▸ List.mem_cons_self x xs
    · exact List.mem_cons_of_mem x (h2 z h)

theorem sortPages_mixed :
    ∀ l : List String, (∀ a : String, a ∈ l → isNumTok a = true →
      ∀ c : String, c ∈ l → isNumTok c = false → sortPages l = Except.error ())
  | [], _, ha, _, _, hc, _ => absurd ha (List.not_mem_nil _)
  | x :: xs, a, ha, hat, c, hc, hcf => by
    by_cases hmix : (∃ y ∈ xs, isNumTok y = true) ∧ (∃ z ∈ xs, isNumTok z = false)
    · obtain ⟨⟨y, hy, hyt⟩, ⟨z, hz, hzf⟩⟩ := hmix
      have := sortPages_mixed xs y hy hyt z hz hzf
      rw [sortPages, this, except_bind_error]
    · cases hxb : isNumTok x with
      | true =>
        have hcxs : c ∈ xs := by
          rcases List.mem_cons.1 hc with h | h
          · rw [h] at hcf
            rw [hcf] at hxb
            exact absurd hxb (by simp)
          · exact h
        have hall : ∀ z ∈ xs, isNumTok z = false := by
          intro z hz
          by_contra hne
          have hzt : isNumTok z = true := by
            cases hb : isNumTok z
            · exact absurd hb hne
            · rfl
          exact hmix ⟨⟨z, hz, hzt⟩, ⟨c, hcxs, hcf⟩⟩
        obtain ⟨r, h1, h2, h3⟩ := sortPages_homog xs hall
        have hrne : r ≠ [] := h3 (by
          intro he
          rw [he] at hcxs
          exact List.not_mem_nil c hcxs)
        obtain ⟨z, r2, rfl⟩ : ∃ z r2, r = z :: r2 := by
          cases r with
          | nil => exact absurd rfl hrne
          | cons z r2 => exact ⟨z, r2, rfl⟩
        have hzf : isNumTok z = false := hall z (h2 z (List.mem_cons_self z r2))
        rw [sortPages, h1, except_bind_ok, insertPage, pageKey_str hzf,
          pageKey_num hxb, keyLt_str_num, except_bind_error]
      | false =>
        have haxs : a ∈ xs := by
          rcases List.mem_cons.1 ha with h | h
          · rw [h] at hat
            rw [hat] at hxb
            exact absurd hxb (by simp)
          · exact h
        have hall : ∀ z ∈ xs, isNumTok z = true := by
          intro z hz
          by_contra hne
          have hzf : isNumTok z = false := by
            cases hb : isNumTok z
            · rfl
            · exact absurd hb hne
          exact hmix ⟨⟨a, haxs, hat⟩, ⟨z, hz, hzf⟩⟩
        obtain ⟨r, h1, h2, h3⟩ := sortPages_homog xs hall
        have hrne : r ≠ [] := h3 (by
          intro he
          rw [he] at haxs
          exact List.not_mem_nil a haxs)
        obtain ⟨z, r2, rfl⟩ : ∃ z r2, r = z :: r2 := by
          cases r with
          | nil => exact absurd rfl hrne
          | cons z r2 => exact ⟨z, r2, rfl⟩
        have hzt : isNumTok z = true := hall z (h2 z (List.mem_cons_self z r2))
        rw [sortPages, h1, except_bind_ok, insertPage, pageKey_num hzt,
          pageKey_str hxb, keyLt_num_str, except_bind_error]

/-- Counterexample to claim C2: on the page set {"5", "iv"} (one numeric and
one non-numeric token) the sorted call does not succeed — the mixed-type key
comparison raises, and the whole aggregation of two such chunks raises. -/
theorem c2_counterexample :
    sortPages ["5", "iv"] = Except.error () ∧
    process_sources
        [⟨some "Тема 1, Стор. 5", some "b.pdf"⟩,
         ⟨some "Тема 1, Стор. iv", some "b.pdf"⟩] = Except.error () := by
  decide

/-- Amended claim C2: the within-group page sort succeeds only on homogeneous
page sets (all numeric or all non-numeric); whenever the set contains both a
purely-numeric and a non-numeric token, the sorted call fails with a
TypeError (modelled as `Except.error`). -/
theorem c2_mixed_page_sort :
    (∀ l : List String, ∀ a ∈ l, isNumTok a = true →
      ∀ c ∈ l, isNumTok c = false → sortPages l = Except.error ()) ∧
    (∀ l : List String, (∀ y ∈ l, isNumTok y = true) →
      ∃ r, sortPages l = Except.ok r) ∧
    (∀ l : List String, (∀ y ∈ l, isNumTok y = false) →
      ∃ r, sortPages l = Except.ok r) := by
  refine ⟨?_, ?_, ?_⟩
  · intro l a ha hat c hc hcf
    exact sortPages_mixed l a ha hat c hc hcf
  · intro l hl
    obtain ⟨r, h1, _, _⟩ := sortPages_homog l hl
    exact ⟨r, h1⟩
  · intro l hl
    obtain ⟨r, h1, _, _⟩ := sortPages_homog l hl
    exact ⟨r, h1⟩

/-- Witness for the amended C2 at the mixed page set {"5", "iv"}. -/
theorem c2_mixed_page_sort_witness :
    "5" ∈ ["5", "iv"] ∧ isNumTok "5" = true ∧
    "iv" ∈ ["5", "iv"] ∧ isNumTok "iv" = false ∧
    sortPages ["5", "iv"] = Except.error () := by
  refine ⟨by decide, by decide, by decide, by decide, ?_⟩
  exact c2_mixed_page_sort.1 ["5", "iv"] "5" (by decide) (by decide) "iv"
    (by decide) (by decide)

/-- Claim C5: two chunks with the same parsed title and the same source
filename fall into one group, and their page tokens form a set, so an equal
page token is stored (and rendered) only once. -/
theorem c5_group_dedup :
    (∀ (c1 c2 : Chunk) (p : String), groupKey c1 = groupKey c2 →
      chunkPage c1 = some p → chunkPage c2 = some p → p ≠ "" →
      buildGroups [c1, c2] = [(groupKey c1, [p])]) ∧
    buildGroups
        [⟨some "Тема 1, Стор. 5", some "docs/book.pdf"⟩,
         ⟨some "Тема 1, Стор. 5", some "extra/book.pdf"⟩] =
      [(("Тема 1", "book.pdf"), ["5"])] ∧
    process_sources
        [⟨some "Тема 1, Стор. 5", some "docs/book.pdf"⟩,
         ⟨some "Тема 1, Стор. 5", some "extra/book.pdf"⟩] =
      Except.ok ("\n\n" ++ sepLine ++
        "\nДжерела:\n1. Тема 1 (Стор. 5) — [book.pdf]") := by
  refine ⟨?_, by decide, by decide⟩
  intro c1 c2 p hk h1 h2 hp
  have e2 : groupKey c2 = groupKey c1 := hk.symm
  simp [buildGroups, addChunk, h1, h2, e2, pageTruthy, addToSet, hp]

/-- Witness for C5 at two concrete chunks sharing title, filename and page. -/
theorem c5_group_dedup_witness :
    groupKey ⟨some "Тема 1, Стор. 5", some "docs/book.pdf"⟩ =
      groupKey ⟨some "Тема 1, Стор. 5", some "extra/book.pdf"⟩ ∧
    buildGroups
        [⟨some "Тема 1, Стор. 5", some "docs/book.pdf"⟩,
         ⟨some "Тема 1, Стор. 5", some "extra/book.pdf"⟩] =
      [(groupKey ⟨some "Тема 1, Стор. 5", some "docs/book.pdf"⟩, ["5"])] := by
  exact ⟨by decide, c5_group_dedup.1 _ _ "5" (by decide) (by decide) (by decide)
    (by decide)⟩

theorem addChunk_ne_nil (groups : List ((String × String) × List String))
    (c : Chunk) : addChunk groups c ≠ [] := by
  rw [addChunk]
  cases hany : groups.any (fun g => g.1 = groupKey c) with
  | true =>
    obtain ⟨g, hg, _⟩ := List.any_eq_true.1 hany
    have hgs : groups ≠ [] := List.ne_nil_of_mem hg
    cases htr : pageTruthy (chunkPage c) <;> simp [hany, htr, hgs]
  | false =>
    cases htr : pageTruthy (chunkPage c) <;> simp [hany, htr]

theorem foldl_addChunk_ne_nil :
    ∀ (cs : List Chunk) (g : List ((String × String) × List String)),
      g ≠ [] → List.foldl addChunk g cs ≠ []
  | [], g, hg => by simpa using hg
  | c :: cs, g, _ => by
    rw [List.foldl_cons]
    exact foldl_addChunk_ne_nil cs (addChunk g c) (addChunk_ne_nil g c)

theorem buildGroups_ne_nil (docs : List Chunk) (h : docs ≠ []) :
    buildGroups docs ≠ [] := by
  cases docs with
  | nil => exact absurd rfl h
  | cons c cs =>
    rw [buildGroups, List.foldl_cons]
    exact foldl_addChunk_ne_nil cs (addChunk [] c) (addChunk_ne_nil [] c)

theorem insertKey_length (x : String × String) :
    ∀ l : List (String × String), (insertKey x l).length = l.length + 1
  | [] => rfl
  | y :: ys => by
    rw [insertKey]
    cases h : keyOrdLt y x <;> simp [insertKey_length x ys]

theorem sortKeys_length :
    ∀ l : List (String × String), (sortKeys l).length = l.length
  | [] => rfl
  | x :: xs => by
    rw [sortKeys, insertKey_length, sortKeys_length xs]
    rfl

theorem renderAll_length (groups : List ((String × String) × List String)) :
    ∀ (ks : List (String × String)) (lines : List String),
      renderAll groups ks = Except.ok lines → lines.length = ks.length
  | [], lines, h => by
    rw [renderAll] at h
    cases h
    rfl
  | k :: ks, lines, h => by
    rw [renderAll] at h
    cases hg : renderGroup groups k with
    | error e => rw [hg, except_bind_error] at h; cases h
    | ok l =>
      rw [hg, except_bind_ok] at h
      cases hr : renderAll groups ks with
      | error e => rw [hr, except_bind_error] at h; cases h
      | ok ls =>
        rw [hr, except_bind_ok] at h
        cases h
        simp [renderAll_length groups ks ls hr]

/-- Claim C10: for a non-empty chunk list that aggregates without a sort
error, the result begins with a blank line, the thirty-'=' separator and the
header, followed by one numbered line per group; the fallback branch
returning "" for an empty rendered list is unreachable. -/
theorem c10_nonempty_output (docs : List Chunk) (hne : docs ≠ [])
    (s : String) (h : process_sources docs = Except.ok s) :
    ∃ lines : List String, lines ≠ [] ∧
      lines.length = (buildGroups docs).length ∧
      renderAll (buildGroups docs)
          (sortKeys ((buildGroups docs).map (fun g => g.1))) =
        Except.ok lines ∧
      s = "\n\n" ++ sepLine ++ "\nДжерела:\n" ++
        String.intercalate "\n" (numberFrom 1 lines) ∧
      s ≠ "" := by
  have hde : docs.isEmpty = false := by
    cases docs with
    | nil => exact absurd rfl hne
    | cons c cs => rfl
  rw [process_sources, hde] at h
  simp only [Bool.false_eq_true, if_false] at h
  cases hrl : renderAll (buildGroups docs)
      (sortKeys ((buildGroups docs).map (fun g => g.1))) with
  | error e => rw [hrl, except_bind_error] at h; cases h
  | ok lines =>
    rw [hrl, except_bind_ok] at h
    have hlen : lines.length = (buildGroups docs).length := by
      rw [renderAll_length (buildGroups docs) _ lines hrl, sortKeys_length,
        List.length_map]
    have hlpos : 0 < lines.length := by
      rw [hlen]
      cases hbg : buildGroups docs with
      | nil => exact absurd hbg (buildGroups_ne_nil docs hne)
      | cons g gs => simp
    have hlne : lines.isEmpty = false := by
      cases lines with
      | nil => simp at hlpos
      | cons l ls => rfl
    rw [hlne] at h
    simp only [Bool.false_eq_true, if_false] at h
    cases h
    refine ⟨lines, ?_, hlen, rfl, rfl, ?_⟩
    · cases lines with
      | nil => simp at hlpos
      | cons l ls => simp
    · intro he
      have hd := congrArg String.data he
      rw [String.data_append, String.data_append, String.data_append] at hd
      simp at hd

/-- Witness for C10 at a one-chunk list with absent metadata (defaults). -/
theorem c10_nonempty_output_witness :
    ([(⟨none, none⟩ : Chunk)] ≠ []) ∧
    process_sources [(⟨none, none⟩ : Chunk)] =
      Except.ok ("\n\n" ++ sepLine ++
        "\nДжерела:\n1. Загальний контекст — [Невідомий файл]") ∧
    ∃ lines : List String, lines ≠ [] ∧
      lines.length = (buildGroups [(⟨none, none⟩ : Chunk)]).length ∧
      renderAll (buildGroups [(⟨none, none⟩ : Chunk)])
          (sortKeys ((buildGroups [(⟨none, none⟩ : Chunk)]).map
            (fun g => g.1))) = Except.ok lines ∧
      ("\n\n" ++ sepLine ++
          "\nДжерела:\n1. Загальний контекст — [Невідомий файл]" : String) =
        "\n\n" ++ sepLine ++ "\nДжерела:\n" ++
          String.intercalate "\n" (numberFrom 1 lines) ∧
      ("\n\n" ++ sepLine ++
          "\nДжерела:\n1. Загальний контекст — [Невідомий файл]" : String) ≠
        "" := by
  refine ⟨by decide, by decide, ?_⟩
  exact c10_nonempty_output [⟨none, none⟩] (by decide) _ (by decide)
